import Mathlib

/-!
Verification of the core logic of `src/app.py` (Swim Team Highlighter):
the `normalize` / `contains_whole_team` string utilities, the `find_matches`
matcher, and the `highlight_lines` highlighter, shallowly embedded in Lean.
Strings are Lean `String`s manipulated through their `List Char` data;
PDF parsing/serialization, delegated by the program to an external library,
is modelled from the spec's external-interface contracts.
-/

namespace Swim

/-- Whitespace characters recognised by Python's `str.strip()` (ASCII range):
space, tab, newline, carriage return, vertical tab, form feed. -/
def isPySpace (c : Char) : Bool :=
  c.toNat == 32 || c.toNat == 9 || c.toNat == 10 || c.toNat == 13 ||
  c.toNat == 11 || c.toNat == 12

/-- Python `s.lower()` (ASCII model: per-character lowercasing). -/
def lower (s : String) : String :=
  ⟨s.data.map Char.toLower⟩

/-- Strip leading and trailing `isPySpace` characters from a character list. -/
def stripList (l : List Char) : List Char :=
  ((l.dropWhile isPySpace).reverse.dropWhile isPySpace).reverse

/-- Python `s.strip()`. -/
def pythonStrip (s : String) : String :=
  ⟨stripList s.data⟩

/-- `normalize` from app.py: `s.lower().strip()`. -/
def normalize (s : String) : String :=
  pythonStrip (lower s)

/-- Python's substring test `needle in hay`, over character lists. -/
def strIn (n : List Char) : List Char → Bool
  | [] => n.isEmpty
  | c :: t => n.isPrefixOf (c :: t) || strIn n t

/-- `contains_whole_team` from app.py: the team code must appear as a
free-standing token of the lowercased line (the function lowercases the
line itself; it never strips it). -/
def contains_whole_team (line team : String) : Bool :=
  let line_low := lower line
  (line_low == team) ||
  List.isPrefixOf (team.data ++ [' ']) line_low.data ||
  List.isSuffixOf ([' '] ++ team.data) line_low.data ||
  strIn ([' '] ++ team.data ++ [' ']) line_low.data ||
  List.isPrefixOf (team.data ++ ['\t']) line_low.data ||
  List.isSuffixOf (['\t'] ++ team.data) line_low.data ||
  strIn (['\t'] ++ team.data ++ ['\t']) line_low.data

/-- Search mode: the radio choices "Team Code" / "Swimmer Name" of the UI. -/
inductive Mode where
  | teamCode
  | swimmerName
deriving DecidableEq

/-- A rectangle `(x0, y0, x1, y1)` in page coordinates. Coordinates are
modelled as integers (the program only compares them via min/max). -/
structure Rect where
  x0 : Int
  y0 : Int
  x1 : Int
  y1 : Int
deriving DecidableEq

/-- A text span of the layout view: its text and its bounding box,
as produced by `page.get_text("dict")`. -/
structure Span where
  text : String
  x0 : Int
  y0 : Int
  x1 : Int
  y1 : Int
deriving DecidableEq

/-- A line of the layout view: a list of spans. -/
structure LayoutLine where
  spans : List Span
deriving DecidableEq

/-- A block of the layout view: its `"type"` marker (0 = text-bearing)
and its lines. -/
structure Block where
  btype : Nat
  lines : List LayoutLine
deriving DecidableEq

/-- A page: its plain-text lines (`page.get_text("text").splitlines()`),
its layout blocks (`page.get_text("dict")["blocks"]`), and the highlight
rectangles drawn on it so far (`page.add_highlight_annot`). -/
structure Page where
  textLines : List String
  blocks : List Block
  annots : List Rect
deriving DecidableEq

/-- A match record produced by `find_matches`: the dict
`{"page": pageno, "line_num": i, "text": line}`. -/
structure Match where
  page : Nat
  line_num : Nat
  text : String
deriving DecidableEq

/-- The per-line test of `find_matches`: Team Code mode calls
`contains_whole_team(line, q)` on the raw line; Swimmer Name mode tests
`q in line_low` where `line_low = normalize(line)`. -/
def lineMatches (q : String) (mode : Mode) (line : String) : Bool :=
  match mode with
  | .teamCode => contains_whole_team line q
  | .swimmerName => strIn q.data (normalize line).data

/-- The inner loop of `find_matches`: `for i, line in enumerate(lines)`,
with `i` starting from the given index. -/
def scanLines (q : String) (mode : Mode) (pageno : Nat) : Nat → List String → List Match
  | _, [] => []
  | i, line :: rest =>
    (if lineMatches q mode line then [⟨pageno, i, line⟩] else []) ++
      scanLines q mode pageno (i + 1) rest

/-- The outer loop of `find_matches`: `for pageno in range(len(doc))`. -/
def scanPages (q : String) (mode : Mode) : Nat → List Page → List Match
  | _, [] => []
  | pageno, pg :: rest =>
    scanLines q mode pageno 0 pg.textLines ++ scanPages q mode (pageno + 1) rest

/-- `find_matches` from app.py. -/
def find_matches (doc : List Page) (query : String) (mode : Mode) : List Match :=
  scanPages (normalize query) mode 0 doc

/-- Failures of `highlight_lines`: `documentError` is the spec's
`DocumentError` (unparseable input bytes); `pageOutOfRange` models the
IndexError of `doc[m["page"]]`; `emptySpanSeq` models the ValueError of
`min()` over an empty span sequence. -/
inductive HlError where
  | documentError
  | pageOutOfRange (idx : Nat)
  | emptySpanSeq
deriving DecidableEq

/-- Modelled from the spec: raw input bytes, which the external PDF library
either parses into a document (a list of pages) or rejects. The byte-level
format is out of scope (spec §1: "this system does not parse the PDF format
itself"), so bytes are represented by what the library makes of them. -/
inductive PdfBytes where
  | valid (doc : List Page)
  | invalid (code : Nat)
deriving DecidableEq

/-- Modelled from the spec: `fitz.open(stream=..., filetype="pdf")` —
parsing either yields the document or fails. -/
def parsePdf : PdfBytes → Option (List Page)
  | .valid doc => some doc
  | .invalid _ => none

/-- Modelled from the spec: `doc.save(out)` — serializing a document yields
bytes that parse back to that document. -/
def serializePdf (doc : List Page) : PdfBytes :=
  .valid doc

/-- Python `" ".join(texts)`. -/
def joinTexts : List String → String
  | [] => ""
  | [s] => s
  | s :: rest => s ++ " " ++ joinTexts rest

/-- The reconstructed text of a layout line, from app.py:
`" ".join([span["text"] for span in line["spans"]]).strip()`. -/
def reconstruct (ln : LayoutLine) : String :=
  pythonStrip (joinTexts (ln.spans.map Span.text))

/-- The combined bounding box of a line's spans, from app.py:
`min`/`max` over the span bboxes (Python's `min`/`max` raise on an empty
sequence, hence the error case). -/
def lineRect (ln : LayoutLine) : Except HlError Rect :=
  match ln.spans with
  | [] => .error .emptySpanSeq
  | s :: rest =>
    .ok ⟨(rest.map Span.x0).foldl min s.x0,
         (rest.map Span.y0).foldl min s.y0,
         (rest.map Span.x1).foldl max s.x1,
         (rest.map Span.y1).foldl max s.y1⟩

/-- The layout lines of a page's text-bearing blocks, in scan order
(blocks with `block["type"] != 0` are skipped). -/
def layoutLines (pg : Page) : List LayoutLine :=
  (pg.blocks.filter (fun b => b.btype == 0)).flatMap Block.lines

/-- The layout lines of a page whose reconstructed text normalizes to the
same string as the (already stripped) target text. -/
def matchingLines (pg : Page) (target : String) : List LayoutLine :=
  (layoutLines pg).filter (fun ln => normalize (reconstruct ln) == normalize target)

/-- Bounding rectangles of a list of layout lines, failing at the first
line whose span sequence is empty. -/
def rectsFor : List LayoutLine → Except HlError (List Rect)
  | [] => .ok []
  | ln :: lns =>
    match lineRect ln with
    | .error e => .error e
    | .ok r =>
      match rectsFor lns with
      | .error e => .error e
      | .ok rs => .ok (r :: rs)

/-- The body of the `for m in matches` loop of `highlight_lines`: look up
the page, find every layout line matching `m["text"].strip()`, and draw a
highlight rectangle for each. -/
def processMatch (doc : List Page) (m : Match) : Except HlError (List Page) :=
  match doc[m.page]? with
  | none => .error (.pageOutOfRange m.page)
  | some pg =>
    match rectsFor (matchingLines pg (pythonStrip m.text)) with
    | .error e => .error e
    | .ok rs => .ok (doc.set m.page ⟨pg.textLines, pg.blocks, pg.annots ++ rs⟩)

/-- The `for m in matches` loop of `highlight_lines`. -/
def runMatches : List Page → List Match → Except HlError (List Page)
  | doc, [] => .ok doc
  | doc, m :: ms =>
    match processMatch doc m with
    | .error e => .error e
    | .ok doc2 => runMatches doc2 ms

/-- `highlight_lines` from app.py: parse the bytes, process every match,
serialize the result. An exception anywhere aborts with no output. -/
def highlight_lines (input_bytes : PdfBytes) (ms : List Match) :
    Except HlError PdfBytes :=
  match parsePdf input_bytes with
  | none => .error .documentError
  | some doc =>
    match runMatches doc ms with
    | .error e => .error e
    | .ok final => .ok (serializePdf final)

/-- The free-standing-token conditions of spec §4.1 step 4, applied to a
string `s`: `s` equals `q`, or starts with `q` followed by a space or tab,
or ends with a space or tab followed by `q`, or contains `q` surrounded by
a space on both sides or by a tab on both sides. -/
def freeStandingIn (s q : String) : Bool :=
  (s == q) ||
  List.isPrefixOf (q.data ++ [' ']) s.data ||
  List.isSuffixOf ([' '] ++ q.data) s.data ||
  strIn ([' '] ++ q.data ++ [' ']) s.data ||
  List.isPrefixOf (q.data ++ ['\t']) s.data ||
  List.isSuffixOf (['\t'] ++ q.data) s.data ||
  strIn (['\t'] ++ q.data ++ ['\t']) s.data

/-- Lowercasing does not change whether a character is whitespace. -/
lemma isPySpace_toLower (c : Char) : isPySpace c.toLower = isPySpace c := by
  have hdef : c.toLower =
      if c.toNat ≥ 65 ∧ c.toNat ≤ 90 then Char.ofNat (c.toNat + 32) else c := rfl
  rw [hdef]
  by_cases h : c.toNat ≥ 65 ∧ c.toNat ≤ 90
  · rw [if_pos h]
    have h1 : (Char.ofNat (c.toNat + 32)).toNat = c.toNat + 32 := by
      unfold Char.ofNat
      rw [dif_pos (Or.inl (by omega))]
      rfl
    have hL : isPySpace (Char.ofNat (c.toNat + 32)) = false := by
      simp only [isPySpace, h1, Bool.or_eq_false_iff, beq_eq_false_iff_ne, ne_eq]
      omega
    have hR : isPySpace c = false := by
      simp only [isPySpace, Bool.or_eq_false_iff, beq_eq_false_iff_ne, ne_eq]
      omega
    rw [hL, hR]
  · rw [if_neg h]

/-- Lowercasing commutes with stripping. -/
lemma stripList_map_toLower (l : List Char) :
    stripList (l.map Char.toLower) = (stripList l).map Char.toLower := by
  have hpf : isPySpace ∘ Char.toLower = isPySpace := funext isPySpace_toLower
  unfold stripList
  rw [List.dropWhile_map, hpf, ← List.map_reverse, List.dropWhile_map, hpf,
    ← List.map_reverse]

lemma head?_dropWhile {α : Type} (p : α → Bool) :
    ∀ (l : List α) (c : α), (l.dropWhile p).head? = some c → p c = false := by
  intro l
  induction l with
  | nil => simp
  | cons x t ih =>
    intro c h
    by_cases hx : p x
    · rw [List.dropWhile_cons_of_pos hx] at h
      exact ih c h
    · rw [List.dropWhile_cons_of_neg hx] at h
      simp only [List.head?_cons, Option.some.injEq] at h
      subst h
      simpa using hx

lemma dropWhile_eq_self {α : Type} (p : α → Bool) (l : List α)
    (h : ∀ c, l.head? = some c → p c = false) : l.dropWhile p = l := by
  cases l with
  | nil => rfl
  | cons x t =>
    rw [List.dropWhile_cons_of_neg]
    simp [h x rfl]

/-- Stripping is idempotent. -/
lemma stripList_idem (l : List Char) : stripList (stripList l) = stripList l := by
  have hA : (stripList l).dropWhile isPySpace = stripList l := by
    apply dropWhile_eq_self
    intro c hc
    unfold stripList at hc
    rw [List.head?_reverse] at hc
    obtain ⟨s, hs⟩ : (l.dropWhile isPySpace).reverse.dropWhile isPySpace <:+
        (l.dropWhile isPySpace).reverse := List.dropWhile_suffix isPySpace
    have hne : (l.dropWhile isPySpace).reverse.dropWhile isPySpace ≠ [] := by
      intro h0
      rw [h0] at hc
      simp at hc
    have hlast : ((l.dropWhile isPySpace).reverse).getLast? = some c := by
      rw [← hs, List.getLast?_append_of_ne_nil _ hne]
      exact hc
    rw [List.getLast?_reverse] at hlast
    exact head?_dropWhile isPySpace l c hlast
  have hB : ((stripList l).reverse).dropWhile isPySpace = (stripList l).reverse := by
    apply dropWhile_eq_self
    intro c hc
    unfold stripList at hc
    rw [List.reverse_reverse] at hc
    exact head?_dropWhile isPySpace _ c hc
  show (((stripList l).dropWhile isPySpace).reverse.dropWhile isPySpace).reverse = stripList l
  rw [hA, hB, List.reverse_reverse]

/-- Normalizing an already stripped string gives the string's normal form:
`normalize (s.strip()) = normalize s`. -/
lemma normalize_pythonStrip (s : String) : normalize (pythonStrip s) = normalize s := by
  show (⟨stripList ((stripList s.data).map Char.toLower)⟩ : String) =
    ⟨stripList (s.data.map Char.toLower)⟩
  rw [stripList_map_toLower, stripList_idem, ← stripList_map_toLower]

/-- Membership in the inner line scan of `find_matches`. -/
lemma mem_scanLines {q : String} {mode : Mode} {pageno : Nat} :
    ∀ (ls : List String) (i : Nat) (m : Match),
      m ∈ scanLines q mode pageno i ls ↔
        ∃ j line, ls[j]? = some line ∧ lineMatches q mode line = true ∧
          m = ⟨pageno, i + j, line⟩ := by
  intro ls
  induction ls with
  | nil =>
    intro i m
    simp [scanLines]
  | cons line rest ih =>
    intro i m
    simp only [scanLines, List.mem_append]
    constructor
    · intro h
      rcases h with h | h
      · by_cases hc : lineMatches q mode line = true
        · rw [if_pos hc] at h
          simp only [List.mem_singleton] at h
          exact ⟨0, line, by simp, hc, by simpa using h⟩
        · rw [if_neg hc] at h
          simp at h
      · rcases (ih (i + 1) m).mp h with ⟨j, l2, hget, hm2, he⟩
        refine ⟨j + 1, l2, by simpa using hget, hm2, ?_⟩
        rw [he]
        congr 1
        omega
    · rintro ⟨j, l2, hget, hm2, he⟩
      cases j with
      | zero =>
        left
        simp only [List.getElem?_cons_zero, Option.some.injEq] at hget
        subst hget
        rw [if_pos hm2]
        simpa using he
      | succ j' =>
        right
        apply (ih (i + 1) m).mpr
        refine ⟨j', l2, by simpa using hget, hm2, ?_⟩
        rw [he]
        congr 1
        omega

/-- Membership in the page scan of `find_matches`. -/
lemma mem_scanPages {q : String} {mode : Mode} :
    ∀ (pages : List Page) (pn : Nat) (m : Match),
      m ∈ scanPages q mode pn pages ↔
        ∃ k pg j line, pages[k]? = some pg ∧ pg.textLines[j]? = some line ∧
          lineMatches q mode line = true ∧ m = ⟨pn + k, j, line⟩ := by
  intro pages
  induction pages with
  | nil =>
    intro pn m
    simp [scanPages]
  | cons pg rest ih =>
    intro pn m
    simp only [scanPages, List.mem_append]
    constructor
    · intro h
      rcases h with h | h
      · rcases (mem_scanLines _ _ _).mp h with ⟨j, line, hget, hm2, he⟩
        exact ⟨0, pg, j, line, by simp, hget, hm2, by simpa using he⟩
      · rcases (ih _ _).mp h with ⟨k, pg2, j, line, hk, hj, hm2, he⟩
        refine ⟨k + 1, pg2, j, line, by simpa using hk, hj, hm2, ?_⟩
        rw [he]
        congr 1
        omega
    · rintro ⟨k, pg2, j, line, hk, hj, hm2, he⟩
      cases k with
      | zero =>
        left
        simp only [List.getElem?_cons_zero, Option.some.injEq] at hk
        subst hk
        exact (mem_scanLines _ _ _).mpr ⟨j, line, hj, hm2, by simpa using he⟩
      | succ k' =>
        right
        apply (ih _ _).mpr
        refine ⟨k', pg2, j, line, by simpa using hk, hj, hm2, ?_⟩
        rw [he]
        congr 1
        omega

/-- Membership in `find_matches`: a match is returned exactly when its page
and line indices locate its text in the document and the text passes the
mode's test against the normalized query. -/
lemma mem_find_matches {doc : List Page} {query : String} {mode : Mode} {m : Match} :
    m ∈ find_matches doc query mode ↔
      ∃ pg, doc[m.page]? = some pg ∧ pg.textLines[m.line_num]? = some m.text ∧
        lineMatches (normalize query) mode m.text = true := by
  unfold find_matches
  rw [mem_scanPages]
  constructor
  · rintro ⟨k, pg, j, line, hk, hj, hm2, he⟩
    subst he
    exact ⟨pg, by simpa using hk, hj, hm2⟩
  · rintro ⟨pg, hk, hj, hm2⟩
    refine ⟨m.page, pg, m.line_num, m.text, by simpa using hk, hj, hm2, ?_⟩
    cases m
    simp

lemma foldl_min_le_init (l : List Int) : ∀ a : Int, l.foldl min a ≤ a := by
  induction l with
  | nil => intro a; simp
  | cons x t ih =>
    intro a
    simpa using le_trans (ih (min a x)) (min_le_left a x)

lemma foldl_min_le_mem (l : List Int) : ∀ (a x : Int), x ∈ l → l.foldl min a ≤ x := by
  induction l with
  | nil => simp
  | cons y t ih =>
    intro a x hx
    rcases List.mem_cons.mp hx with rfl | hx
    · simpa using le_trans (foldl_min_le_init t (min a x)) (min_le_right a x)
    · simpa using ih (min a y) x hx

lemma foldl_min_attained (l : List Int) : ∀ a : Int, l.foldl min a = a ∨ l.foldl min a ∈ l := by
  induction l with
  | nil => intro a; simp
  | cons y t ih =>
    intro a
    simp only [List.foldl_cons]
    rcases ih (min a y) with h | h
    · rw [h]
      rcases min_choice a y with h2 | h2
      · exact Or.inl h2
      · right
        rw [h2]
        exact List.mem_cons_self y t
    · exact Or.inr (List.mem_cons_of_mem y h)

lemma foldl_max_ge_init (l : List Int) : ∀ a : Int, a ≤ l.foldl max a := by
  induction l with
  | nil => intro a; simp
  | cons x t ih =>
    intro a
    simpa using le_trans (le_max_left a x) (ih (max a x))

lemma foldl_max_ge_mem (l : List Int) : ∀ (a x : Int), x ∈ l → x ≤ l.foldl max a := by
  induction l with
  | nil => simp
  | cons y t ih =>
    intro a x hx
    rcases List.mem_cons.mp hx with rfl | hx
    · simpa using le_trans (le_max_right a x) (foldl_max_ge_init t (max a x))
    · simpa using ih (max a y) x hx

lemma foldl_max_attained (l : List Int) : ∀ a : Int, l.foldl max a = a ∨ l.foldl max a ∈ l := by
  induction l with
  | nil => intro a; simp
  | cons y t ih =>
    intro a
    simp only [List.foldl_cons]
    rcases ih (max a y) with h | h
    · rw [h]
      rcases max_choice a y with h2 | h2
      · exact Or.inl h2
      · right
        rw [h2]
        exact List.mem_cons_self y t
    · exact Or.inr (List.mem_cons_of_mem y h)

/-- A successful `lineRect` is exactly the union of the span bounding boxes:
it bounds every span and attains each of its four coordinates on some span. -/
lemma lineRect_ok {ln : LayoutLine} {r : Rect} (h : lineRect ln = .ok r) :
    (∀ s ∈ ln.spans, r.x0 ≤ s.x0 ∧ r.y0 ≤ s.y0 ∧ s.x1 ≤ r.x1 ∧ s.y1 ≤ r.y1) ∧
      (∃ s ∈ ln.spans, r.x0 = s.x0) ∧ (∃ s ∈ ln.spans, r.y0 = s.y0) ∧
      (∃ s ∈ ln.spans, r.x1 = s.x1) ∧ (∃ s ∈ ln.spans, r.y1 = s.y1) := by
  unfold lineRect at h
  cases hs : ln.spans with
  | nil => rw [hs] at h; simp at h
  | cons s rest =>
    rw [hs] at h
    simp only [Except.ok.injEq] at h
    subst h
    refine ⟨?_, ?_, ?_, ?_, ?_⟩
    · intro sp hsp
      rcases List.mem_cons.mp hsp with rfl | hsp
      · exact ⟨foldl_min_le_init _ _, foldl_min_le_init _ _,
          foldl_max_ge_init _ _, foldl_max_ge_init _ _⟩
      · exact ⟨foldl_min_le_mem _ _ _ (List.mem_map_of_mem Span.x0 hsp),
          foldl_min_le_mem _ _ _ (List.mem_map_of_mem Span.y0 hsp),
          foldl_max_ge_mem _ _ _ (List.mem_map_of_mem Span.x1 hsp),
          foldl_max_ge_mem _ _ _ (List.mem_map_of_mem Span.y1 hsp)⟩
    · rcases foldl_min_attained (rest.map Span.x0) s.x0 with h | h
      · exact ⟨s, List.mem_cons_self s rest, h⟩
      · rcases List.mem_map.mp h with ⟨sp, hsp, he⟩
        exact ⟨sp, List.mem_cons_of_mem s hsp, he.symm⟩
    · rcases foldl_min_attained (rest.map Span.y0) s.y0 with h | h
      · exact ⟨s, List.mem_cons_self s rest, h⟩
      · rcases List.mem_map.mp h with ⟨sp, hsp, he⟩
        exact ⟨sp, List.mem_cons_of_mem s hsp, he.symm⟩
    · rcases foldl_max_attained (rest.map Span.x1) s.x1 with h | h
      · exact ⟨s, List.mem_cons_self s rest, h⟩
      · rcases List.mem_map.mp h with ⟨sp, hsp, he⟩
        exact ⟨sp, List.mem_cons_of_mem s hsp, he.symm⟩
    · rcases foldl_max_attained (rest.map Span.y1) s.y1 with h | h
      · exact ⟨s, List.mem_cons_self s rest, h⟩
      · rcases List.mem_map.mp h with ⟨sp, hsp, he⟩
        exact ⟨sp, List.mem_cons_of_mem s hsp, he.symm⟩

/-- `rectsFor` only fails on an empty span sequence. -/
lemma rectsFor_error {lns : List LayoutLine} {e : HlError}
    (h : rectsFor lns = .error e) : e = .emptySpanSeq := by
  induction lns with
  | nil => simp [rectsFor] at h
  | cons ln rest ih =>
    unfold rectsFor at h
    cases hr : lineRect ln with
    | error e2 =>
      rw [hr] at h
      unfold lineRect at hr
      cases hs : ln.spans with
      | nil =>
        rw [hs] at hr
        simp only [Except.error.injEq] at hr h
        rw [← h, ← hr]
      | cons s t =>
        rw [hs] at hr
        simp at hr
    | ok r =>
      rw [hr] at h
      cases hrec : rectsFor rest with
      | error e2 =>
        rw [hrec] at h
        simp only [Except.error.injEq] at h
        subst h
        exact ih hrec
      | ok rs =>
        rw [hrec] at h
        simp at h

/-- A successful `rectsFor` yields one rectangle per line, each a successful
`lineRect`. -/
lemma rectsFor_ok {lns : List LayoutLine} {rs : List Rect}
    (h : rectsFor lns = .ok rs) :
    rs.length = lns.length ∧ ∀ ln ∈ lns, ∃ r ∈ rs, lineRect ln = .ok r := by
  induction lns generalizing rs with
  | nil =>
    simp only [rectsFor, Except.ok.injEq] at h
    subst h
    simp
  | cons ln rest ih =>
    unfold rectsFor at h
    cases hr : lineRect ln with
    | error e => rw [hr] at h; simp at h
    | ok r =>
      rw [hr] at h
      cases hrec : rectsFor rest with
      | error e => rw [hrec] at h; simp at h
      | ok rs2 =>
        rw [hrec] at h
        simp only [Except.ok.injEq] at h
        subst h
        obtain ⟨hlen, hmem⟩ := ih hrec
        constructor
        · simp [hlen]
        · intro ln2 hln2
          rcases List.mem_cons.mp hln2 with rfl | hln2
          · exact ⟨r, List.mem_cons_self r rs2, hr⟩
          · obtain ⟨r2, hr2, he2⟩ := hmem ln2 hln2
            exact ⟨r2, List.mem_cons_of_mem r hr2, he2⟩

/-- Setting a list entry to the value it already holds is the identity. -/
lemma set_getElem_eq {α : Type} :
    ∀ (l : List α) (i : Nat) (a : α), l[i]? = some a → l.set i a = l := by
  intro l
  induction l with
  | nil => intro i a h; simp at h
  | cons x t ih =>
    intro i a h
    cases i with
    | zero =>
      simp only [List.getElem?_cons_zero, Option.some.injEq] at h
      subst h
      rfl
    | succ i' =>
      simp only [List.getElem?_cons_succ] at h
      simp [List.set_cons_succ, ih i' a h]

/-- Characterization of a successful `processMatch`. -/
lemma processMatch_ok {doc : List Page} {m : Match} {doc2 : List Page}
    (h : processMatch doc m = .ok doc2) :
    ∃ pg rs, doc[m.page]? = some pg ∧
      rectsFor (matchingLines pg (pythonStrip m.text)) = .ok rs ∧
      doc2 = doc.set m.page ⟨pg.textLines, pg.blocks, pg.annots ++ rs⟩ := by
  unfold processMatch at h
  split at h
  · simp at h
  · rename_i pg hg
    split at h
    · simp at h
    · rename_i rs hr
      simp only [Except.ok.injEq] at h
      exact ⟨pg, rs, hg, hr, h.symm⟩

/-- A failing `processMatch` fails either because the page index is out of
range or because of an empty span sequence; never with `documentError`. -/
lemma processMatch_error {doc : List Page} {m : Match} {e : HlError}
    (h : processMatch doc m = .error e) :
    (e = .pageOutOfRange m.page ∧ doc[m.page]? = none) ∨ e = .emptySpanSeq := by
  unfold processMatch at h
  split at h
  · rename_i hg
    simp only [Except.error.injEq] at h
    exact Or.inl ⟨h.symm, hg⟩
  · rename_i pg hg
    split at h
    · rename_i e2 hr
      simp only [Except.error.injEq] at h
      subst h
      exact Or.inr (rectsFor_error hr)
    · simp at h

/-- `processMatch` keeps every page's text lines and layout blocks, and only
appends to its highlight rectangles. -/
lemma processMatch_pages {doc : List Page} {m : Match} {doc2 : List Page}
    (h : processMatch doc m = .ok doc2) (p : Nat) (pg : Page)
    (hp : doc[p]? = some pg) :
    ∃ extra, doc2[p]? = some ⟨pg.textLines, pg.blocks, pg.annots ++ extra⟩ := by
  obtain ⟨pg0, rs, hg, hr, rfl⟩ := processMatch_ok h
  by_cases hpm : m.page = p
  · subst hpm
    rw [hg] at hp
    obtain rfl : pg0 = pg := by simpa using hp
    have hlt : m.page < doc.length := by
      rcases List.getElem?_eq_some.mp hg with ⟨h1, _⟩
      exact h1
    exact ⟨rs, by simp [List.getElem?_set, hlt]⟩
  · refine ⟨[], ?_⟩
    rw [List.getElem?_set]
    simp only [hpm, if_false]
    rw [hp, List.append_nil]

/-- `processMatch` preserves the number of pages. -/
lemma processMatch_length {doc : List Page} {m : Match} {doc2 : List Page}
    (h : processMatch doc m = .ok doc2) : doc2.length = doc.length := by
  obtain ⟨pg, rs, _, _, rfl⟩ := processMatch_ok h
  exact List.length_set doc m.page _

/-- `runMatches` keeps every page's text lines and layout blocks, and only
appends to its highlight rectangles. -/
lemma runMatches_pages :
    ∀ (ms : List Match) (doc doc2 : List Page),
      runMatches doc ms = .ok doc2 → ∀ (p : Nat) (pg : Page), doc[p]? = some pg →
        ∃ extra, doc2[p]? = some ⟨pg.textLines, pg.blocks, pg.annots ++ extra⟩ := by
  intro ms
  induction ms with
  | nil =>
    intro doc doc2 h p pg hp
    simp only [runMatches, Except.ok.injEq] at h
    subst h
    exact ⟨[], by rw [hp, List.append_nil]⟩
  | cons m rest ih =>
    intro doc doc2 h p pg hp
    unfold runMatches at h
    cases hpm : processMatch doc m with
    | error e => rw [hpm] at h; simp at h
    | ok docm =>
      rw [hpm] at h
      obtain ⟨e1, hp1⟩ := processMatch_pages hpm p pg hp
      obtain ⟨e2, hp2⟩ := ih docm doc2 h p _ hp1
      exact ⟨e1 ++ e2, by rw [hp2]; simp [List.append_assoc]⟩

/-- Splitting `runMatches` over a list append. -/
lemma runMatches_append :
    ∀ (ms1 ms2 : List Match) (doc : List Page),
      runMatches doc (ms1 ++ ms2) =
        match runMatches doc ms1 with
        | .error e => .error e
        | .ok docA => runMatches docA ms2 := by
  intro ms1
  induction ms1 with
  | nil => intro ms2 doc; rfl
  | cons m rest ih =>
    intro ms2 doc
    have hcons : ∀ (d : List Page) (l : List Match), runMatches d (m :: l) =
        match processMatch d m with
        | .error e => .error e
        | .ok d2 => runMatches d2 l := fun d l => rfl
    rw [List.cons_append, hcons, hcons]
    cases hpm : processMatch doc m with
    | error e => rfl
    | ok docm => exact ih ms2 docm

/-- `runMatches` never fails with `documentError`. -/
lemma runMatches_error :
    ∀ (ms : List Match) (doc : List Page) (e : HlError),
      runMatches doc ms = .error e → e ≠ .documentError := by
  intro ms
  induction ms with
  | nil => intro doc e h; simp [runMatches] at h
  | cons m rest ih =>
    intro doc e h
    unfold runMatches at h
    cases hpm : processMatch doc m with
    | error e2 =>
      rw [hpm] at h
      simp only [Except.error.injEq] at h
      subst h
      rcases processMatch_error hpm with ⟨h1, _⟩ | h1 <;> simp [h1]
    | ok docm =>
      rw [hpm] at h
      exact ih docm e h

/-- When every match's page index is in range, `runMatches` never fails with
`pageOutOfRange`. -/
lemma runMatches_no_pageErr :
    ∀ (ms : List Match) (doc : List Page),
      (∀ m ∈ ms, m.page < doc.length) →
        ∀ (i : Nat), runMatches doc ms ≠ .error (.pageOutOfRange i) := by
  intro ms
  induction ms with
  | nil => intro doc _ i h; simp [runMatches] at h
  | cons m rest ih =>
    intro doc hin i h
    unfold runMatches at h
    cases hpm : processMatch doc m with
    | error e =>
      rw [hpm] at h
      simp only [Except.error.injEq] at h
      subst h
      rcases processMatch_error hpm with ⟨_, h2⟩ | h2
      · have := hin m (List.mem_cons_self m rest)
        rw [List.getElem?_eq_none_iff] at h2
        omega
      · simp at h2
    | ok docm =>
      rw [hpm] at h
      refine ih docm ?_ i h
      intro m2 hm2
      rw [processMatch_length hpm]
      exact hin m2 (List.mem_cons_of_mem m hm2)

lemma exists_page_and {α : Type} {A B : α → Prop} {C : Prop} :
    (∃ x, A x ∧ B x ∧ C) ↔ (∃ x, A x ∧ B x) ∧ C := by
  constructor
  · rintro ⟨x, ha, hb, hc⟩
    exact ⟨⟨x, ha, hb⟩, hc⟩
  · rintro ⟨⟨x, ha, hb⟩, hc⟩
    exact ⟨x, ha, hb, hc⟩

lemma strIn_nil (l : List Char) : strIn [] l = true := by
  cases l <;> simp [strIn, List.isPrefixOf]

/-- C4: in SwimmerName mode, `find_matches` includes a line exactly when the
normalized query is a substring of the normalized line (case-insensitive
substring containment); in particular every positioned line whose normal
form contains the query is included. -/
theorem C4_swimmer_name_substring (doc : List Page) (query : String)
    (p i : Nat) (line : String) :
    (⟨p, i, line⟩ : Match) ∈ find_matches doc query .swimmerName ↔
      (∃ pg, doc[p]? = some pg ∧ pg.textLines[i]? = some line) ∧
        strIn (normalize query).data (normalize line).data = true := by
  rw [mem_find_matches]
  exact exists_page_and

/-- C1 counterexample: the line `"\tMAC-MA "` normalizes to `"mac-ma"`, so
the claim's free-standing-token conditions hold on the normalized line
(it equals the normalized query), yet `find_matches` does not match it in
TeamCode mode: the code applies the conditions to the lowercased but
untrimmed line. -/
theorem C1_counterexample :
    freeStandingIn (normalize "\tMAC-MA ") (normalize "mac-ma") = true ∧
    find_matches [⟨["\tMAC-MA "], [], []⟩] "mac-ma" Mode.teamCode = [] := by
  constructor
  · decide
  · decide

/-- C1 (amended): in TeamCode mode, `find_matches` includes a line exactly
when the lowercased (but not whitespace-trimmed) line equals the normalized
query `q`, starts with `q` followed by a space or tab, ends with a space or
tab followed by `q`, or contains `q` surrounded by a space on both sides or
by a tab on both sides; in particular a line consisting solely of "MAC-MA"
matches query "mac-ma" while a line consisting solely of "EMAC-MA" does
not. -/
theorem C1_teamCode_token (doc : List Page) (query : String)
    (p i : Nat) (line : String) :
    ((⟨p, i, line⟩ : Match) ∈ find_matches doc query .teamCode ↔
      (∃ pg, doc[p]? = some pg ∧ pg.textLines[i]? = some line) ∧
        freeStandingIn (lower line) (normalize query) = true) ∧
    find_matches [⟨["MAC-MA"], [], []⟩] "mac-ma" Mode.teamCode =
      [⟨0, 0, "MAC-MA"⟩] ∧
    find_matches [⟨["EMAC-MA"], [], []⟩] "mac-ma" Mode.teamCode = [] := by
  refine ⟨?_, by decide, by decide⟩
  rw [mem_find_matches]
  exact exists_page_and

/-- The lines Team Code mode actually matches when the query normalizes to
the empty string: blank lines, lines starting or ending with a space or a
tab, and lines containing two consecutive spaces or two consecutive tabs. -/
def emptyQueryTeamHit (line : String) : Bool :=
  (lower line == "") ||
  List.isPrefixOf [' '] (lower line).data ||
  List.isSuffixOf [' '] (lower line).data ||
  strIn [' ', ' '] (lower line).data ||
  List.isPrefixOf ['\t'] (lower line).data ||
  List.isSuffixOf ['\t'] (lower line).data ||
  strIn ['\t', '\t'] (lower line).data

lemma contains_whole_team_empty (line : String) :
    contains_whole_team line "" = emptyQueryTeamHit line := rfl

/-- C2 counterexample: with the whitespace-only query `" "` (which
normalizes to the empty string), TeamCode mode matches the line `"abc "`,
which is not blank (not even after stripping). -/
theorem C2_counterexample :
    normalize " " = "" ∧
    find_matches [⟨["abc "], [], []⟩] " " Mode.teamCode = [⟨0, 0, "abc "⟩] ∧
    ("abc " : String) ≠ "" ∧ pythonStrip "abc " ≠ "" := by
  refine ⟨by decide, by decide, by decide, by decide⟩

/-- C2 (amended): a query that normalizes to the empty string matches every
line in SwimmerName mode; in TeamCode mode it matches exactly the blank
lines, the lines starting or ending with a space or tab, and the lines
containing two consecutive spaces or two consecutive tabs. -/
theorem C2_empty_query (doc : List Page) (query : String)
    (hq : normalize query = "") :
    (∀ (p i : Nat) (line : String),
      (⟨p, i, line⟩ : Match) ∈ find_matches doc query .swimmerName ↔
        ∃ pg, doc[p]? = some pg ∧ pg.textLines[i]? = some line) ∧
    (∀ (p i : Nat) (line : String),
      (⟨p, i, line⟩ : Match) ∈ find_matches doc query .teamCode ↔
        (∃ pg, doc[p]? = some pg ∧ pg.textLines[i]? = some line) ∧
          emptyQueryTeamHit line = true) := by
  constructor
  · intro p i line
    rw [mem_find_matches]
    have hsw : lineMatches (normalize query) .swimmerName line = true := by
      show strIn (normalize query).data (normalize line).data = true
      rw [hq]
      exact strIn_nil _
    constructor
    · rintro ⟨pg, h1, h2, _⟩
      exact ⟨pg, h1, h2⟩
    · rintro ⟨pg, h1, h2⟩
      exact ⟨pg, h1, h2, hsw⟩
  · intro p i line
    rw [mem_find_matches]
    have htc : lineMatches (normalize query) .teamCode line =
        emptyQueryTeamHit line := by
      show contains_whole_team line (normalize query) = _
      rw [hq]
      exact contains_whole_team_empty line
    rw [htc]
    exact exists_page_and

/-- Closed witness for `C2_empty_query` at a concrete document and query. -/
theorem C2_empty_query_witness :
    (⟨0, 0, "x"⟩ : Match) ∈ find_matches [⟨["x"], [], []⟩] "" .swimmerName ↔
      ∃ pg, ([⟨["x"], [], []⟩] : List Page)[(0 : Nat)]? = some pg ∧
        pg.textLines[(0 : Nat)]? = some "x" :=
  (C2_empty_query [⟨["x"], [], []⟩] "" (by decide)).1 0 0 "x"

/-- The page-then-line scan order on matches: earlier page, or same page and
earlier line. -/
def matchLt (a b : Match) : Prop :=
  a.page < b.page ∨ (a.page = b.page ∧ a.line_num < b.line_num)

lemma scanLines_bounds {q : String} {mode : Mode} {pageno : Nat} :
    ∀ {ls : List String} {i : Nat} {m : Match},
      m ∈ scanLines q mode pageno i ls → m.page = pageno ∧ i ≤ m.line_num := by
  intro ls
  induction ls with
  | nil =>
    intro i m h
    simp [scanLines] at h
  | cons line rest ih =>
    intro i m h
    simp only [scanLines] at h
    rcases List.mem_append.mp h with h | h
    · by_cases hc : lineMatches q mode line = true
      · rw [if_pos hc] at h
        simp only [List.mem_singleton] at h
        subst h
        exact ⟨rfl, le_refl i⟩
      · rw [if_neg hc] at h
        simp at h
    · obtain ⟨h1, h2⟩ := ih h
      exact ⟨h1, by omega⟩

lemma scanLines_pairwise {q : String} {mode : Mode} {pageno : Nat} :
    ∀ (ls : List String) (i : Nat), (scanLines q mode pageno i ls).Pairwise matchLt := by
  intro ls
  induction ls with
  | nil =>
    intro i
    simp [scanLines]
  | cons line rest ih =>
    intro i
    simp only [scanLines]
    rw [List.pairwise_append]
    refine ⟨?_, ih (i + 1), ?_⟩
    · by_cases hc : lineMatches q mode line = true
      · rw [if_pos hc]
        simp
      · rw [if_neg hc]
        simp
    · intro a ha b hb
      obtain ⟨hb1, hb2⟩ := scanLines_bounds hb
      by_cases hc : lineMatches q mode line = true
      · rw [if_pos hc] at ha
        simp only [List.mem_singleton] at ha
        subst ha
        right
        refine ⟨hb1.symm, ?_⟩
        show i < b.line_num
        omega
      · rw [if_neg hc] at ha
        simp at ha

lemma scanPages_bounds {q : String} {mode : Mode} :
    ∀ {pages : List Page} {pn : Nat} {m : Match},
      m ∈ scanPages q mode pn pages → pn ≤ m.page := by
  intro pages
  induction pages with
  | nil =>
    intro pn m h
    simp [scanPages] at h
  | cons pg rest ih =>
    intro pn m h
    simp only [scanPages] at h
    rcases List.mem_append.mp h with h | h
    · exact le_of_eq (scanLines_bounds h).1.symm
    · exact le_trans (by omega) (ih h)

lemma scanPages_pairwise {q : String} {mode : Mode} :
    ∀ (pages : List Page) (pn : Nat), (scanPages q mode pn pages).Pairwise matchLt := by
  intro pages
  induction pages with
  | nil =>
    intro pn
    simp [scanPages]
  | cons pg rest ih =>
    intro pn
    simp only [scanPages]
    rw [List.pairwise_append]
    refine ⟨scanLines_pairwise _ _, ih (pn + 1), ?_⟩
    intro a ha b hb
    left
    have ha1 := (scanLines_bounds ha).1
    have hb1 := scanPages_bounds hb
    omega

/-- C8: `find_matches` returns matches in page-then-line scan order
(page index ascending, line index ascending within a page), and every match
carries the zero-based page index, zero-based line index and the original
unnormalized line text found at that position. -/
theorem C8_scan_order (doc : List Page) (query : String) (mode : Mode) :
    (find_matches doc query mode).Pairwise matchLt ∧
    ∀ m ∈ find_matches doc query mode,
      ∃ pg, doc[m.page]? = some pg ∧ pg.textLines[m.line_num]? = some m.text := by
  constructor
  · exact scanPages_pairwise doc 0
  · intro m hm
    rcases mem_find_matches.mp hm with ⟨pg, h1, h2, _⟩
    exact ⟨pg, h1, h2⟩

/-- Closed witness for `C8_scan_order`: the spec's two-page example, with a
match on page 0 line 2 and one on page 1 line 0. -/
theorem C8_scan_order_witness :
    (find_matches [⟨["a", "b", "x"], [], []⟩, ⟨["x"], [], []⟩] "x"
      .swimmerName).Pairwise matchLt ∧
    ∃ pg, ([⟨["a", "b", "x"], [], []⟩, ⟨["x"], [], []⟩] :
        List Page)[(0 : Nat)]? = some pg ∧ pg.textLines[(2 : Nat)]? = some "x" := by
  constructor
  · exact (C8_scan_order [⟨["a", "b", "x"], [], []⟩, ⟨["x"], [], []⟩] "x"
      .swimmerName).1
  · exact (C8_scan_order [⟨["a", "b", "x"], [], []⟩, ⟨["x"], [], []⟩] "x"
      .swimmerName).2 ⟨0, 2, "x"⟩ (by decide)

/-- C3: `highlight_lines` fails with the spec's `DocumentError` exactly when
the input bytes cannot be parsed as a valid document; on that failure the
result is the bare error, so no partial output bytes are returned. -/
theorem C3_documentError (b : PdfBytes) (ms : List Match) :
    highlight_lines b ms = .error .documentError ↔ parsePdf b = none := by
  constructor
  · intro h
    cases hb : parsePdf b with
    | none => rfl
    | some doc =>
      exfalso
      unfold highlight_lines at h
      rw [hb] at h
      have h2 : (match runMatches doc ms with
          | .error e => (.error e : Except HlError PdfBytes)
          | .ok final => .ok (serializePdf final)) = .error .documentError := h
      cases hr : runMatches doc ms with
      | error e =>
        rw [hr] at h2
        simp only [Except.error.injEq] at h2
        exact absurd h2 (runMatches_error ms doc e hr)
      | ok final =>
        rw [hr] at h2
        simp at h2
  · intro h
    unfold highlight_lines
    rw [h]

/-- C10: every match returned by `find_matches` locates a real page and a
real plain-text line of the document, so when `highlight_lines` runs on the
same document's bytes its page lookup never goes out of range: the
`pageOutOfRange` error branch is unreachable. -/
theorem C10_indices_safe (doc : List Page) (query : String) (mode : Mode) :
    (∀ m ∈ find_matches doc query mode,
      ∃ pg, doc[m.page]? = some pg ∧ m.line_num < pg.textLines.length) ∧
    ∀ (b : PdfBytes), parsePdf b = some doc →
      ∀ (i : Nat), highlight_lines b (find_matches doc query mode) ≠
        .error (.pageOutOfRange i) := by
  have hpart1 : ∀ m ∈ find_matches doc query mode,
      ∃ pg, doc[m.page]? = some pg ∧ m.line_num < pg.textLines.length := by
    intro m hm
    rcases mem_find_matches.mp hm with ⟨pg, h1, h2, _⟩
    rcases List.getElem?_eq_some.mp h2 with ⟨hlt, _⟩
    exact ⟨pg, h1, hlt⟩
  refine ⟨hpart1, ?_⟩
  intro b hb i
  unfold highlight_lines
  rw [hb]
  intro h
  have h2 : (match runMatches doc (find_matches doc query mode) with
      | .error e => (.error e : Except HlError PdfBytes)
      | .ok final => .ok (serializePdf final)) = .error (.pageOutOfRange i) := h
  cases hr : runMatches doc (find_matches doc query mode) with
  | error e =>
    rw [hr] at h2
    simp only [Except.error.injEq] at h2
    subst h2
    refine runMatches_no_pageErr _ doc ?_ i hr
    intro m hm
    rcases hpart1 m hm with ⟨pg, h1, _⟩
    rcases List.getElem?_eq_some.mp h1 with ⟨hlt, _⟩
    exact hlt
  | ok final =>
    rw [hr] at h2
    simp at h2

/-- Closed witness for `C10_indices_safe` at a concrete document. -/
theorem C10_indices_safe_witness :
    highlight_lines (.valid [⟨["x"], [], []⟩])
      (find_matches [⟨["x"], [], []⟩] "x" .swimmerName) ≠
      .error (.pageOutOfRange 0) :=
  (C10_indices_safe [⟨["x"], [], []⟩] "x" .swimmerName).2
    (.valid [⟨["x"], [], []⟩]) rfl 0

/-- C9: highlighting with an empty match list succeeds on every parseable
input, draws no highlight rectangles, and returns bytes that re-parse into a
document with the same page count and the same text content per page. -/
theorem C9_empty_roundtrip (b : PdfBytes) (doc : List Page)
    (h : parsePdf b = some doc) :
    ∃ out doc2, highlight_lines b [] = .ok out ∧ parsePdf out = some doc2 ∧
      doc2.length = doc.length ∧
      (∀ p : Nat, (doc2[p]?).map Page.textLines = (doc[p]?).map Page.textLines) ∧
      (∀ p : Nat, (doc2[p]?).map Page.annots = (doc[p]?).map Page.annots) := by
  refine ⟨serializePdf doc, doc, ?_, rfl, rfl, fun p => rfl, fun p => rfl⟩
  unfold highlight_lines
  rw [h]
  rfl

/-- Closed witness for `C9_empty_roundtrip` at a concrete document. -/
theorem C9_empty_roundtrip_witness :
    ∃ out doc2, highlight_lines (.valid [⟨["x"], [], []⟩]) [] = .ok out ∧
      parsePdf out = some doc2 ∧
      doc2.length = ([⟨["x"], [], []⟩] : List Page).length ∧
      (∀ p : Nat, (doc2[p]?).map Page.textLines =
        (([⟨["x"], [], []⟩] : List Page)[p]?).map Page.textLines) ∧
      (∀ p : Nat, (doc2[p]?).map Page.annots =
        (([⟨["x"], [], []⟩] : List Page)[p]?).map Page.annots) :=
  C9_empty_roundtrip (.valid [⟨["x"], [], []⟩]) [⟨["x"], [], []⟩] rfl

/-- `processMatch` once the page lookup has succeeded. -/
lemma processMatch_eq_some {doc : List Page} {m : Match} {pg : Page}
    (hg : doc[m.page]? = some pg) :
    processMatch doc m =
      match rectsFor (matchingLines pg (pythonStrip m.text)) with
      | .error e => .error e
      | .ok rs => .ok (doc.set m.page ⟨pg.textLines, pg.blocks, pg.annots ++ rs⟩) := by
  unfold processMatch
  rw [hg]

/-- C7: a match that no layout line of its page reconstructs to is silently
skipped: highlighting with it anywhere in the match list gives exactly the
same result as highlighting with it removed — no error is raised, no
rectangle is drawn for it, its page is not altered, and the remaining
matches are still processed. -/
theorem C7_silent_skip (b : PdfBytes) (doc : List Page) (ms1 ms2 : List Match)
    (m : Match) (pg : Page)
    (hparse : parsePdf b = some doc)
    (hpg : doc[m.page]? = some pg)
    (hnone : matchingLines pg (pythonStrip m.text) = []) :
    highlight_lines b (ms1 ++ m :: ms2) = highlight_lines b (ms1 ++ ms2) := by
  unfold highlight_lines
  rw [hparse]
  suffices h : runMatches doc (ms1 ++ m :: ms2) = runMatches doc (ms1 ++ ms2) by
    show (match runMatches doc (ms1 ++ m :: ms2) with
      | .error e => (.error e : Except HlError PdfBytes)
      | .ok final => .ok (serializePdf final)) =
      match runMatches doc (ms1 ++ ms2) with
      | .error e => .error e
      | .ok final => .ok (serializePdf final)
    rw [h]
  rw [runMatches_append, runMatches_append]
  cases hA : runMatches doc ms1 with
  | error e => rfl
  | ok docA =>
    obtain ⟨extra, hpA⟩ := runMatches_pages ms1 doc docA hA m.page pg hpg
    have hcons : runMatches docA (m :: ms2) =
        match processMatch docA m with
        | .error e => .error e
        | .ok d2 => runMatches d2 ms2 := rfl
    show runMatches docA (m :: ms2) = runMatches docA ms2
    rw [hcons]
    have hmA : matchingLines (⟨pg.textLines, pg.blocks, pg.annots ++ extra⟩ : Page)
        (pythonStrip m.text) = [] := hnone
    have hproc : processMatch docA m = .ok docA := by
      rw [processMatch_eq_some hpA, hmA]
      show (.ok (docA.set m.page
          ⟨pg.textLines, pg.blocks, (pg.annots ++ extra) ++ ([] : List Rect)⟩) :
        Except HlError (List Page)) = .ok docA
      rw [List.append_nil]
      rw [set_getElem_eq docA m.page _ hpA]
    rw [hproc]

/-- Closed witness for `C7_silent_skip` at a concrete document whose page
has no layout lines at all. -/
theorem C7_silent_skip_witness :
    highlight_lines (.valid [⟨["x"], [], []⟩]) ([] ++ (⟨0, 0, "x"⟩ : Match) :: []) =
      highlight_lines (.valid [⟨["x"], [], []⟩]) ([] ++ []) :=
  C7_silent_skip (.valid [⟨["x"], [], []⟩]) [⟨["x"], [], []⟩] [] []
    ⟨0, 0, "x"⟩ ⟨["x"], [], []⟩ rfl rfl rfl

/-- C5: when highlighting succeeds, every layout line (in a text-bearing
block) of a match's page whose spans' texts — concatenated with single-space
separators, trimmed and normalized — equal the match's normalized line text
receives a highlight rectangle that is exactly the union of the line's span
bounding boxes: it bounds every span and attains each of its four
coordinates (min x0, min y0, max x1, max y1) on some span. -/
theorem C5_union_bbox (b : PdfBytes) (ms : List Match) (out : PdfBytes)
    (doc : List Page) (m : Match) (pg : Page) (ln : LayoutLine)
    (hok : highlight_lines b ms = .ok out)
    (hparse : parsePdf b = some doc)
    (hm : m ∈ ms)
    (hpg : doc[m.page]? = some pg)
    (hln : ln ∈ layoutLines pg)
    (htext : normalize (reconstruct ln) = normalize m.text) :
    ∃ doc2 pg2 r, parsePdf out = some doc2 ∧ doc2[m.page]? = some pg2 ∧
      r ∈ pg2.annots ∧
      (∀ s ∈ ln.spans, r.x0 ≤ s.x0 ∧ r.y0 ≤ s.y0 ∧ s.x1 ≤ r.x1 ∧ s.y1 ≤ r.y1) ∧
      (∃ s ∈ ln.spans, r.x0 = s.x0) ∧ (∃ s ∈ ln.spans, r.y0 = s.y0) ∧
      (∃ s ∈ ln.spans, r.x1 = s.x1) ∧ (∃ s ∈ ln.spans, r.y1 = s.y1) := by
  have hok2 : (match runMatches doc ms with
      | .error e => (.error e : Except HlError PdfBytes)
      | .ok final => .ok (serializePdf final)) = .ok out := by
    unfold highlight_lines at hok
    rw [hparse] at hok
    exact hok
  cases hr : runMatches doc ms with
  | error e =>
    rw [hr] at hok2
    simp at hok2
  | ok final =>
    rw [hr] at hok2
    simp only [Except.ok.injEq] at hok2
    subst hok2
    obtain ⟨ms1, ms2, rfl⟩ := List.append_of_mem hm
    rw [runMatches_append] at hr
    cases hA : runMatches doc ms1 with
    | error e =>
      rw [hA] at hr
      simp at hr
    | ok docA =>
      rw [hA] at hr
      have hcons : runMatches docA (m :: ms2) =
          match processMatch docA m with
          | .error e => .error e
          | .ok d2 => runMatches d2 ms2 := rfl
      have hr1 : (match processMatch docA m with
          | .error e => (.error e : Except HlError (List Page))
          | .ok d2 => runMatches d2 ms2) = .ok final := by
        rw [← hcons]
        exact hr
      cases hB : processMatch docA m with
      | error e =>
        rw [hB] at hr1
        simp at hr1
      | ok docB =>
        rw [hB] at hr1
        have hr2 : runMatches docB ms2 = .ok final := hr1
        obtain ⟨extra, hpA⟩ := runMatches_pages ms1 doc docA hA m.page pg hpg
        obtain ⟨pg0, rs, hg, hrects, hset⟩ := processMatch_ok hB
        rw [hpA] at hg
        obtain rfl : pg0 = ⟨pg.textLines, pg.blocks, pg.annots ++ extra⟩ := by
          simpa using hg.symm
        have hmem : ln ∈ matchingLines
            (⟨pg.textLines, pg.blocks, pg.annots ++ extra⟩ : Page)
            (pythonStrip m.text) := by
          unfold matchingLines
          rw [List.mem_filter]
          refine ⟨hln, ?_⟩
          rw [normalize_pythonStrip, beq_iff_eq]
          exact htext
        obtain ⟨hlen, hmemr⟩ := rectsFor_ok hrects
        obtain ⟨r, hrin, hrl⟩ := hmemr ln hmem
        have hltA : m.page < docA.length := (List.getElem?_eq_some.mp hpA).1
        have hpB : docB[m.page]? =
            some ⟨pg.textLines, pg.blocks, (pg.annots ++ extra) ++ rs⟩ := by
          rw [hset]
          simp [List.getElem?_set, hltA]
        obtain ⟨e2, hpF⟩ := runMatches_pages ms2 docB final hr2 m.page _ hpB
        refine ⟨final, _, r, rfl, hpF, ?_, lineRect_ok hrl⟩
        simp only [List.mem_append]
        exact Or.inl (Or.inr hrin)

/-- Closed witness for `C5_union_bbox`: a one-page document whose single
layout line has two spans; its highlight rectangle is their union. -/
theorem C5_union_bbox_witness :
    ∃ doc2 pg2 r,
      parsePdf (.valid [⟨["John Smith"],
        [⟨0, [⟨[⟨"John", 10, 20, 30, 40⟩, ⟨"Smith", 35, 18, 60, 42⟩]⟩]⟩],
        [⟨10, 18, 60, 42⟩]⟩]) = some doc2 ∧
      doc2[(⟨0, 0, "John Smith"⟩ : Match).page]? = some pg2 ∧
      r ∈ pg2.annots ∧
      (∀ s ∈ (⟨[⟨"John", 10, 20, 30, 40⟩, ⟨"Smith", 35, 18, 60, 42⟩]⟩ :
          LayoutLine).spans,
        r.x0 ≤ s.x0 ∧ r.y0 ≤ s.y0 ∧ s.x1 ≤ r.x1 ∧ s.y1 ≤ r.y1) ∧
      (∃ s ∈ (⟨[⟨"John", 10, 20, 30, 40⟩, ⟨"Smith", 35, 18, 60, 42⟩]⟩ :
          LayoutLine).spans, r.x0 = s.x0) ∧
      (∃ s ∈ (⟨[⟨"John", 10, 20, 30, 40⟩, ⟨"Smith", 35, 18, 60, 42⟩]⟩ :
          LayoutLine).spans, r.y0 = s.y0) ∧
      (∃ s ∈ (⟨[⟨"John", 10, 20, 30, 40⟩, ⟨"Smith", 35, 18, 60, 42⟩]⟩ :
          LayoutLine).spans, r.x1 = s.x1) ∧
      (∃ s ∈ (⟨[⟨"John", 10, 20, 30, 40⟩, ⟨"Smith", 35, 18, 60, 42⟩]⟩ :
          LayoutLine).spans, r.y1 = s.y1) :=
  C5_union_bbox
    (.valid [⟨["John Smith"],
      [⟨0, [⟨[⟨"John", 10, 20, 30, 40⟩, ⟨"Smith", 35, 18, 60, 42⟩]⟩]⟩], []⟩])
    [⟨0, 0, "John Smith"⟩]
    (.valid [⟨["John Smith"],
      [⟨0, [⟨[⟨"John", 10, 20, 30, 40⟩, ⟨"Smith", 35, 18, 60, 42⟩]⟩]⟩],
      [⟨10, 18, 60, 42⟩]⟩])
    [⟨["John Smith"],
      [⟨0, [⟨[⟨"John", 10, 20, 30, 40⟩, ⟨"Smith", 35, 18, 60, 42⟩]⟩]⟩], []⟩]
    ⟨0, 0, "John Smith"⟩
    ⟨["John Smith"],
      [⟨0, [⟨[⟨"John", 10, 20, 30, 40⟩, ⟨"Smith", 35, 18, 60, 42⟩]⟩]⟩], []⟩
    ⟨[⟨"John", 10, 20, 30, 40⟩, ⟨"Smith", 35, 18, 60, 42⟩]⟩
    (by rfl) rfl (by decide) rfl (by decide) (by decide)

/-- C6: when highlighting succeeds, a match produces one highlight rectangle
per matching layout line of its page — if several layout lines normalize to
the same text as the match, every one of them receives a highlight, and the
whole batch of rectangles lands in the output page's highlight list. -/
theorem C6_every_duplicate (b : PdfBytes) (ms : List Match) (out : PdfBytes)
    (doc : List Page) (m : Match) (pg : Page)
    (hok : highlight_lines b ms = .ok out)
    (hparse : parsePdf b = some doc)
    (hm : m ∈ ms)
    (hpg : doc[m.page]? = some pg) :
    ∃ doc2 pg2 rs, parsePdf out = some doc2 ∧ doc2[m.page]? = some pg2 ∧
      rectsFor (matchingLines pg (pythonStrip m.text)) = .ok rs ∧
      rs.length = (matchingLines pg (pythonStrip m.text)).length ∧
      rs <:+: pg2.annots ∧
      (∀ ln, ln ∈ matchingLines pg (pythonStrip m.text) ↔
        ln ∈ layoutLines pg ∧ normalize (reconstruct ln) = normalize m.text) := by
  have hok2 : (match runMatches doc ms with
      | .error e => (.error e : Except HlError PdfBytes)
      | .ok final => .ok (serializePdf final)) = .ok out := by
    unfold highlight_lines at hok
    rw [hparse] at hok
    exact hok
  cases hr : runMatches doc ms with
  | error e =>
    rw [hr] at hok2
    simp at hok2
  | ok final =>
    rw [hr] at hok2
    simp only [Except.ok.injEq] at hok2
    subst hok2
    obtain ⟨ms1, ms2, rfl⟩ := List.append_of_mem hm
    rw [runMatches_append] at hr
    cases hA : runMatches doc ms1 with
    | error e =>
      rw [hA] at hr
      simp at hr
    | ok docA =>
      rw [hA] at hr
      have hcons : runMatches docA (m :: ms2) =
          match processMatch docA m with
          | .error e => .error e
          | .ok d2 => runMatches d2 ms2 := rfl
      have hr1 : (match processMatch docA m with
          | .error e => (.error e : Except HlError (List Page))
          | .ok d2 => runMatches d2 ms2) = .ok final := by
        rw [← hcons]
        exact hr
      cases hB : processMatch docA m with
      | error e =>
        rw [hB] at hr1
        simp at hr1
      | ok docB =>
        rw [hB] at hr1
        have hr2 : runMatches docB ms2 = .ok final := hr1
        obtain ⟨extra, hpA⟩ := runMatches_pages ms1 doc docA hA m.page pg hpg
        obtain ⟨pg0, rs, hg, hrects, hset⟩ := processMatch_ok hB
        rw [hpA] at hg
        obtain rfl : pg0 = ⟨pg.textLines, pg.blocks, pg.annots ++ extra⟩ := by
          simpa using hg.symm
        have hrects2 : rectsFor (matchingLines pg (pythonStrip m.text)) = .ok rs :=
          hrects
        obtain ⟨hlen, _⟩ := rectsFor_ok hrects2
        have hltA : m.page < docA.length := (List.getElem?_eq_some.mp hpA).1
        have hpB : docB[m.page]? =
            some ⟨pg.textLines, pg.blocks, (pg.annots ++ extra) ++ rs⟩ := by
          rw [hset]
          simp [List.getElem?_set, hltA]
        obtain ⟨e2, hpF⟩ := runMatches_pages ms2 docB final hr2 m.page _ hpB
        refine ⟨final, _, rs, rfl, hpF, hrects2, hlen, ?_, ?_⟩
        · refine ⟨pg.annots ++ extra, e2, ?_⟩
          simp [List.append_assoc]
        · intro ln
          unfold matchingLines
          rw [List.mem_filter]
          simp only [beq_iff_eq, normalize_pythonStrip]

/-- Closed witness for `C6_every_duplicate`: a page with two layout lines
bearing the same text; both rectangles are produced and land in the output. -/
theorem C6_every_duplicate_witness :
    ∃ doc2 pg2 rs,
      parsePdf (.valid [⟨["MAC-MA"],
        [⟨0, [⟨[⟨"MAC-MA", 0, 0, 10, 10⟩]⟩, ⟨[⟨"MAC-MA", 0, 20, 10, 30⟩]⟩]⟩],
        [⟨0, 0, 10, 10⟩, ⟨0, 20, 10, 30⟩]⟩]) = some doc2 ∧
      doc2[(⟨0, 0, "MAC-MA"⟩ : Match).page]? = some pg2 ∧
      rectsFor (matchingLines
        (⟨["MAC-MA"],
          [⟨0, [⟨[⟨"MAC-MA", 0, 0, 10, 10⟩]⟩, ⟨[⟨"MAC-MA", 0, 20, 10, 30⟩]⟩]⟩],
          []⟩ : Page)
        (pythonStrip (⟨0, 0, "MAC-MA"⟩ : Match).text)) = .ok rs ∧
      rs.length = (matchingLines
        (⟨["MAC-MA"],
          [⟨0, [⟨[⟨"MAC-MA", 0, 0, 10, 10⟩]⟩, ⟨[⟨"MAC-MA", 0, 20, 10, 30⟩]⟩]⟩],
          []⟩ : Page)
        (pythonStrip (⟨0, 0, "MAC-MA"⟩ : Match).text)).length ∧
      rs <:+: pg2.annots ∧
      (∀ ln, ln ∈ matchingLines
          (⟨["MAC-MA"],
            [⟨0, [⟨[⟨"MAC-MA", 0, 0, 10, 10⟩]⟩, ⟨[⟨"MAC-MA", 0, 20, 10, 30⟩]⟩]⟩],
            []⟩ : Page)
          (pythonStrip (⟨0, 0, "MAC-MA"⟩ : Match).text) ↔
        ln ∈ layoutLines
          (⟨["MAC-MA"],
            [⟨0, [⟨[⟨"MAC-MA", 0, 0, 10, 10⟩]⟩, ⟨[⟨"MAC-MA", 0, 20, 10, 30⟩]⟩]⟩],
            []⟩ : Page) ∧
          normalize (reconstruct ln) = normalize (⟨0, 0, "MAC-MA"⟩ : Match).text) :=
  C6_every_duplicate
    (.valid [⟨["MAC-MA"],
      [⟨0, [⟨[⟨"MAC-MA", 0, 0, 10, 10⟩]⟩, ⟨[⟨"MAC-MA", 0, 20, 10, 30⟩]⟩]⟩], []⟩])
    [⟨0, 0, "MAC-MA"⟩]
    (.valid [⟨["MAC-MA"],
      [⟨0, [⟨[⟨"MAC-MA", 0, 0, 10, 10⟩]⟩, ⟨[⟨"MAC-MA", 0, 20, 10, 30⟩]⟩]⟩],
      [⟨0, 0, 10, 10⟩, ⟨0, 20, 10, 30⟩]⟩])
    [⟨["MAC-MA"],
      [⟨0, [⟨[⟨"MAC-MA", 0, 0, 10, 10⟩]⟩, ⟨[⟨"MAC-MA", 0, 20, 10, 30⟩]⟩]⟩], []⟩]
    ⟨0, 0, "MAC-MA"⟩
    ⟨["MAC-MA"],
      [⟨0, [⟨[⟨"MAC-MA", 0, 0, 10, 10⟩]⟩, ⟨[⟨"MAC-MA", 0, 20, 10, 30⟩]⟩]⟩], []⟩
    (by rfl) rfl (by decide) rfl

end Swim
